import Mathlib

/- Shallow embedding of the EMODE Euler-method solver
(src/computations/emode.py, web entry point src/frontend.py).

Real values are modelled as rationals.  A slope evaluation that raises one
of the caught exceptions (ValueError, ZeroDivisionError, TypeError), or
yields a non-finite value, is modelled by the right-hand side returning
`none`: the parsed ODE is a function `ℚ → ℚ → Option ℚ`.  The external
reference IVP solver (scipy's solve_ivp) is an out-of-scope collaborator;
its trajectory is passed in as two lists mirroring `x_vals_analytic` and
`y_vals_analytic`.  The string sentinels `DNE` and `N/A` are both rendered
as `none` in the corresponding `Option ℚ` fields. -/

namespace Emode

/-- One row of the returned ledger (an `EmodeList.Node` as serialised by
`to_dict`): `none` stands for the sentinels `DNE` (values) / `N/A` (errors). -/
structure Record where
  x : ℚ
  expected : Option ℚ
  actual : Option ℚ
  absError : Option ℚ
  relError : Option ℚ
  deriving DecidableEq

/-- Python's `round(·)` to an integer: nearest, ties to even (banker's
rounding), here on an exact rational. -/
def roundHalfEven (q : ℚ) : ℤ :=
  if q - (⌊q⌋ : ℚ) < 1/2 then ⌊q⌋
  else if 1/2 < q - (⌊q⌋ : ℚ) then ⌊q⌋ + 1
  else if ⌊q⌋ % 2 = 0 then ⌊q⌋ else ⌊q⌋ + 1

/-- `round(float(value), 6)` inside `EmodeList.safe_float`: round to six
decimal places. -/
def round6 (q : ℚ) : ℚ := (roundHalfEven (q * 1000000) : ℚ) / 1000000

/-- `EmodeList.safe_float`: `None` (here `none`) becomes the `DNE`
sentinel, a number is rounded to six decimal places.  (In `to_dict` the
string sentinels are passed through unchanged, which on `Option ℚ` is the
same `Option.map round6`.) -/
def safe_float (v : Option ℚ) : Option ℚ := v.map round6

/-- Symbolic right-hand-side expressions in the variables x and y — the
fragment of sympy expressions the classifier inspects. -/
inductive SymExpr where
  | varX
  | varY
  | lit (c : ℚ)
  | add (a b : SymExpr)
  | mul (a b : SymExpr)
  | div (a b : SymExpr)
  | pow (a b : SymExpr)
  deriving DecidableEq

/-- Whether the expression contains the symbol x (`expr.has(x)`). -/
def hasX : SymExpr → Bool
  | .varX => true
  | .varY => false
  | .lit _ => false
  | .add a b => hasX a || hasX b
  | .mul a b => hasX a || hasX b
  | .div a b => hasX a || hasX b
  | .pow a b => hasX a || hasX b

/-- Whether the expression contains the symbol y (`expr.has(y)`). -/
def hasY : SymExpr → Bool
  | .varX => false
  | .varY => true
  | .lit _ => false
  | .add a b => hasY a || hasY b
  | .mul a b => hasY a || hasY b
  | .div a b => hasY a || hasY b
  | .pow a b => hasY a || hasY b

/-- The dependency signatures (`ode_type` strings 'xy', 'x', 'y', 'const'). -/
inductive OdeType where
  | xy
  | xOnly
  | yOnly
  | const
  deriving DecidableEq

/-- The classification performed by `Emode.parse_ode`
(src/computations/emode.py:140-153).  sympy's `ode_expr.has(x, y)` is true
when the expression contains x OR y — `Basic.has(*patterns)` tests whether
ANY of the given patterns occurs — so the first branch is `hasX || hasY`. -/
def odeType (e : SymExpr) : OdeType :=
  if hasX e || hasY e then OdeType.xy
  else if hasX e then OdeType.xOnly
  else if hasY e then OdeType.yOnly
  else OdeType.const

/-- Modelled from the spec: the classification as the spec words it
("references both variables → XY; else if only x → X_ONLY; else if only
y → Y_ONLY; else CONST"), for comparison with the code's `odeType`. -/
def odeTypeSpec (e : SymExpr) : OdeType :=
  if hasX e && hasY e then OdeType.xy
  else if hasX e then OdeType.xOnly
  else if hasY e then OdeType.yOnly
  else OdeType.const

/-- The mutable pair (x_curr, y_curr) of the Euler forward sweep. -/
structure SweepState where
  x : ℚ
  y : ℚ
  deriving DecidableEq

/-- One iteration of the forward sweep (`Emode.euler` loop body,
src/computations/emode.py:171-197).  On a successful, finite slope the
step advances x by the step size and y by step·slope and records the new
y; on a caught failure (`except` branch) x still advances by the step
size, y is left unchanged, and the record's actual value is the `DNE`
sentinel.  Returns (new state, emitted record as an (x, actual) pair). -/
def sweepStep (f : ℚ → ℚ → Option ℚ) (h : ℚ) (st : SweepState) :
    SweepState × (ℚ × Option ℚ) :=
  match f st.x st.y with
  | some slope =>
      let x' := st.x + h
      let y' := st.y + h * slope
      (⟨x', y'⟩, (x', some y'))
  | none => (⟨st.x + h, st.y⟩, (st.x + h, none))

/-- The `for _ in range(n_steps)` loop: `n` iterations of `sweepStep`,
collecting the emitted records in order. -/
def sweepLoop (f : ℚ → ℚ → Option ℚ) (h : ℚ) : ℕ → SweepState → List (ℚ × Option ℚ)
  | 0, _ => []
  | n + 1, st =>
      let p := sweepStep f h st
      p.2 :: sweepLoop f h n p.1

/-- The full forward sweep: the unconditional initial record
`(x0, some y0)` (emode.py:167) followed by the `n` loop iterations. -/
def sweep (f : ℚ → ℚ → Option ℚ) (x0 y0 h : ℚ) (n : ℕ) : List (ℚ × Option ℚ) :=
  (x0, some y0) :: sweepLoop f h n ⟨x0, y0⟩

/-- `n_steps = int(np.ceil((desired_x - initial_x) / step_size))`
(emode.py:170); Python's `range` of a non-positive count is empty, which
`Int.toNat` reproduces. -/
def nSteps (x0 h t : ℚ) : ℕ := (⌈(t - x0) / h⌉).toNat

/-- Tail of Python's `min(range(len(xs)), key=...)` scan: the incumbent
best index `besti` (key value `bestv`) is replaced only by a strictly
smaller key, so the first minimizer wins; `i` is the absolute index of the
head of the remaining list. -/
def argminAbsAux (t : ℚ) : List ℚ → ℕ → ℕ → ℚ → ℕ
  | [], _, besti, _ => besti
  | v :: rest, i, besti, bestv =>
      if |v - t| < bestv then argminAbsAux t rest (i + 1) i (|v - t|)
      else argminAbsAux t rest (i + 1) besti bestv

/-- `min(range(len(xs)), key=lambda i: abs(xs[i] - x))`
(emode.py:212-213), the nearest-reference index for target `t`. -/
def argminAbs (t : ℚ) : List ℚ → ℕ
  | [] => 0
  | v :: rest => argminAbsAux t rest 1 0 (|v - t|)

/-- The error computation of the second pass (emode.py:220-229): both
errors are the `N/A` sentinel unless the Euler value and the matched
reference value are both numbers; the relative error divides the absolute
error by the signed reference value, guarded against a zero reference. -/
def errorFields (actual expected : Option ℚ) : Option ℚ × Option ℚ :=
  match actual, expected with
  | some a, some e =>
      (some (|e - a|), if e = 0 then none else some ((|e - a|) / e))
  | _, _ => (none, none)

/-- The second pass on one node (emode.py:208-233): when the reference
x-list is nonempty, match the reference sample whose x is nearest
(`argminAbs`) and read the corresponding y (an out-of-range index raises
and is caught, giving `DNE`); an empty reference trajectory gives `DNE`.
Then fill both error fields. -/
def fillRecord (refX refY : List ℚ) (p : ℚ × Option ℚ) : Record :=
  let expected : Option ℚ :=
    match refX with
    | [] => none
    | _ :: _ => refY.get? (argminAbs p.1 refX)
  let errs := errorFields p.2 expected
  { x := p.1, expected := expected, actual := p.2,
    absError := errs.1, relError := errs.2 }

/-- `EmodeList.to_dict` on one node (emode.py:62-77): every numeric field
is rounded to six decimal places via `safe_float`; sentinel fields pass
through. -/
def dictRecord (r : Record) : Record :=
  { x := round6 r.x, expected := safe_float r.expected,
    actual := safe_float r.actual, absError := safe_float r.absError,
    relError := safe_float r.relError }

/-- `Emode.euler` (emode.py:155-236), with the parsed right-hand side `f`
and the reference trajectory supplied by the out-of-scope collaborators:
the forward sweep, the second pass filling reference values and errors,
then `to_dict`. -/
def euler (f : ℚ → ℚ → Option ℚ) (x0 y0 h t : ℚ) (refX refY : List ℚ) :
    List Record :=
  ((sweep f x0 y0 h (nSteps x0 h t)).map (fillRecord refX refY)).map dictRecord

/-- The error responses of the `/evaluate` endpoint's validation
(frontend.py:31-36), in source order. -/
inductive EvalError where
  | noLatex
  | badStep
  | badInterval
  deriving DecidableEq

/-- The `/evaluate` endpoint (frontend.py:19-53): a missing expression, a
non-positive step and a reversed interval are rejected in that source
order, before the solver is instantiated; otherwise the solver runs. -/
def evaluate (latex : String) (start endX y0 h : ℚ)
    (f : ℚ → ℚ → Option ℚ) (refX refY : List ℚ) :
    Except EvalError (List Record) :=
  if latex = "" then .error .noLatex
  else if h ≤ 0 then .error .badStep
  else if endX ≤ start then .error .badInterval
  else .ok (euler f start y0 h endX refX refY)

/- Helper lemmas -/

theorem sweepLoop_length (f : ℚ → ℚ → Option ℚ) (h : ℚ) :
    ∀ (n : ℕ) (st : SweepState), (sweepLoop f h n st).length = n := by
  intro n
  induction n with
  | zero => intro st; rfl
  | succ n ih => intro st; simp [sweepLoop, ih]

theorem sweep_length (f : ℚ → ℚ → Option ℚ) (x0 y0 h : ℚ) (n : ℕ) :
    (sweep f x0 y0 h n).length = n + 1 := by
  simp [sweep, sweepLoop_length]

theorem euler_length (f : ℚ → ℚ → Option ℚ) (x0 y0 h t : ℚ) (refX refY : List ℚ) :
    (euler f x0 y0 h t refX refY).length = nSteps x0 h t + 1 := by
  simp [euler, sweep_length]

theorem sweepStep_state_x (f : ℚ → ℚ → Option ℚ) (h : ℚ) (st : SweepState) :
    (sweepStep f h st).1.x = st.x + h := by
  cases hf : f st.x st.y <;> simp [sweepStep, hf]

theorem sweepStep_rec_x (f : ℚ → ℚ → Option ℚ) (h : ℚ) (st : SweepState) :
    (sweepStep f h st).2.1 = st.x + h := by
  cases hf : f st.x st.y <;> simp [sweepStep, hf]

theorem sweepLoop_getD_x (f : ℚ → ℚ → Option ℚ) (h : ℚ) :
    ∀ (n : ℕ) (st : SweepState) (i : ℕ), i < n →
      ((sweepLoop f h n st).getD i (0, none)).1 = st.x + (i + 1) * h := by
  intro n
  induction n with
  | zero => intro st i hi; omega
  | succ n ih =>
      intro st i hi
      cases i with
      | zero =>
          simp [sweepLoop, sweepStep_rec_x]
      | succ i =>
          have hi' : i < n := by omega
          simp only [sweepLoop, List.getD_cons_succ]
          rw [ih (sweepStep f h st).1 i hi', sweepStep_state_x]
          push_cast
          ring

theorem sweep_getD_x (f : ℚ → ℚ → Option ℚ) (x0 y0 h : ℚ) (n : ℕ) :
    ∀ i : ℕ, i < n + 1 →
      ((sweep f x0 y0 h n).getD i (0, none)).1 = x0 + i * h := by
  intro i hi
  cases i with
  | zero => simp [sweep]
  | succ i =>
      have hi' : i < n := by omega
      simp only [sweep, List.getD_cons_succ]
      rw [sweepLoop_getD_x f h n ⟨x0, y0⟩ i hi']
      push_cast
      ring

/- Claim theorems -/

/-- C1: for step > 0 and target_x > x0 the returned ledger has exactly
ceil((target_x - x0) / step) + 1 records, for every right-hand side `f`
(hence however many individual step evaluations fail). -/
theorem ledger_length_is_ceil_plus_one (f : ℚ → ℚ → Option ℚ)
    (x0 y0 h t : ℚ) (refX refY : List ℚ) (hh : 0 < h) (ht : x0 < t) :
    ((euler f x0 y0 h t refX refY).length : ℤ) = ⌈(t - x0) / h⌉ + 1 := by
  have hpos : (0 : ℚ) < (t - x0) / h := div_pos (by linarith) hh
  have hceil : 0 < ⌈(t - x0) / h⌉ := Int.ceil_pos.mpr hpos
  rw [euler_length]
  simp only [nSteps]
  push_cast [Int.toNat_of_nonneg hceil.le]
  ring

theorem ledger_length_is_ceil_plus_one_witness :
    (0 : ℚ) < 1 ∧ (0 : ℚ) < 1 ∧
      ((euler (fun _ _ => some 0) 0 0 1 1 [] []).length : ℤ) = ⌈((1 : ℚ) - 0) / 1⌉ + 1 :=
  ⟨one_pos, one_pos,
    ledger_length_is_ceil_plus_one (fun _ _ => some 0) 0 0 1 1 [] [] one_pos one_pos⟩

/-- C2: a step whose slope evaluation fails emits a record whose actual
value is the `DNE` sentinel and whose x has still advanced by one step,
while the state keeps the last valid y (so the next iteration evaluates
the slope at that y); the loop still runs every one of its iterations. -/
theorem failed_step_advances_x_keeps_y (f : ℚ → ℚ → Option ℚ) (h : ℚ)
    (st : SweepState) (hf : f st.x st.y = none) :
    sweepStep f h st = (⟨st.x + h, st.y⟩, (st.x + h, none)) ∧
    ∀ n : ℕ, (sweepLoop f h n st).length = n := by
  constructor
  · simp [sweepStep, hf]
  · intro n; exact sweepLoop_length f h n st

theorem failed_step_advances_x_keeps_y_witness :
    (fun (_ _ : ℚ) => (none : Option ℚ)) 0 1 = none ∧
    sweepStep (fun _ _ => none) 1 ⟨0, 1⟩ = (⟨0 + 1, 1⟩, (0 + 1, none)) ∧
    (sweepLoop (fun _ _ => none) 1 3 ⟨0, 1⟩).length = 3 :=
  ⟨rfl,
    (failed_step_advances_x_keeps_y (fun _ _ => none) 1 ⟨0, 1⟩ rfl).1,
    (failed_step_advances_x_keeps_y (fun _ _ => none) 1 ⟨0, 1⟩ rfl).2 3⟩

/-- C3: evaluating the classifier at an expression that contains x but not
y.  The code (sympy `has(x, y)` = contains x OR y) classifies it `xy`,
while the spec's classification gives `X_ONLY` — and the same happens for
`2*x`: the `xOnly` (and `yOnly`) branches of the code are unreachable. -/
theorem classifier_x_only_misclassified :
    odeType SymExpr.varX = OdeType.xy ∧
    odeTypeSpec SymExpr.varX = OdeType.xOnly ∧
    odeType (SymExpr.mul (SymExpr.lit 2) SymExpr.varX) = OdeType.xy ∧
    odeType SymExpr.varY = OdeType.xy ∧
    odeTypeSpec SymExpr.varY = OdeType.yOnly := by
  refine ⟨rfl, rfl, rfl, rfl, rfl⟩

theorem errorFields_none_right (a : Option ℚ) : errorFields a none = (none, none) := by
  cases a <;> rfl

theorem euler_map_actual (f : ℚ → ℚ → Option ℚ) (x0 y0 h t : ℚ)
    (refX refY : List ℚ) :
    (euler f x0 y0 h t refX refY).map Record.actual =
      (sweep f x0 y0 h (nSteps x0 h t)).map (fun p => safe_float p.2) := by
  simp only [euler, List.map_map]
  rfl

/-- C4 counterexample: with Euler value 1 and reference value −2 the code
computes rel_error = abs_error / reference_y = 3 / (−2) < 0, not
abs_error / |reference_y| = 3/2 — the claim's "always non-negative" fails. -/
theorem rel_error_counterexample :
    (errorFields (some 1) (some (-2))).1 = some 3 ∧
    (errorFields (some 1) (some (-2))).2 = some (-(3 / 2)) ∧
    (errorFields (some 1) (some (-2))).2 ≠ some ((|(-2 : ℚ) - 1|) / |(-2 : ℚ)|) ∧
    (-(3 / 2) : ℚ) < 0 := by
  refine ⟨by norm_num [errorFields], by norm_num [errorFields], ?_, by norm_num⟩
  norm_num [errorFields]

/-- C4 (amended): when both values are real, abs_error = |reference − approx|
and rel_error = abs_error / reference_y with the SIGNED reference value —
negative when reference_y is negative — and the `N/A` sentinel when
reference_y = 0. -/
theorem rel_error_signed_division (a e : ℚ) (he : e ≠ 0) :
    (errorFields (some a) (some e)).1 = some (|e - a|) ∧
    (errorFields (some a) (some e)).2 = some ((|e - a|) / e) ∧
    (errorFields (some a) (some 0)).2 = none := by
  simp [errorFields, he]

theorem rel_error_signed_division_witness :
    ((-2 : ℚ) ≠ 0) ∧
    ((errorFields (some 1) (some (-2))).1 = some (|(-2 : ℚ) - 1|) ∧
      (errorFields (some 1) (some (-2))).2 = some ((|(-2 : ℚ) - 1|) / (-2)) ∧
      (errorFields (some 1) (some (0 : ℚ))).2 = none) :=
  ⟨neg_ne_zero.mpr two_ne_zero,
    rel_error_signed_division 1 (-2) (neg_ne_zero.mpr two_ne_zero)⟩

/-- C5: with an empty reference trajectory the solver still returns the
full ledger: every record's expected value and both error fields are the
sentinels, while the actual values — and the ledger length — are exactly
what they would be with any reference trajectory present. -/
theorem empty_reference_absorbed (f : ℚ → ℚ → Option ℚ) (x0 y0 h t : ℚ)
    (refY refX' refY' : List ℚ) :
    (∀ r ∈ euler f x0 y0 h t [] refY,
        r.expected = none ∧ r.absError = none ∧ r.relError = none) ∧
    (euler f x0 y0 h t [] refY).map Record.actual =
      (euler f x0 y0 h t refX' refY').map Record.actual ∧
    (euler f x0 y0 h t [] refY).length = (euler f x0 y0 h t refX' refY').length := by
  refine ⟨?_, ?_, ?_⟩
  · intro r hr
    simp only [euler, List.map_map, List.mem_map, Function.comp] at hr
    obtain ⟨p, _, rfl⟩ := hr
    simp [dictRecord, fillRecord, safe_float, errorFields_none_right]
  · rw [euler_map_actual, euler_map_actual]
  · rw [euler_length, euler_length]

theorem empty_reference_absorbed_witness :
    (⟨0, none, some 0, none, none⟩ : Record) ∈
        euler (fun _ _ => none) 0 0 1 1 [] [] ∧
    (Record.expected ⟨0, none, some 0, none, none⟩ = none ∧
      Record.absError ⟨0, none, some 0, none, none⟩ = none ∧
      Record.relError ⟨0, none, some 0, none, none⟩ = none) := by
  have hmem : (⟨0, none, some 0, none, none⟩ : Record) ∈
      euler (fun _ _ => none) 0 0 1 1 [] [] := by
    norm_num [euler, nSteps, sweep, sweepLoop, sweepStep, fillRecord, errorFields,
      dictRecord, safe_float, round6, roundHalfEven]
  exact ⟨hmem,
    (empty_reference_absorbed (fun _ _ => none) 0 0 1 1 [] [] []).1 _ hmem⟩

/-- C6: in the forward sweep the x-coordinate of record i is exactly
x0 + i·step — for failed steps just as for successful ones — and with a
positive step size the x-coordinates are strictly increasing; the
returned ledger's x column is this grid rounded to six decimal places. -/
theorem x_grid_and_strictly_increasing (f : ℚ → ℚ → Option ℚ)
    (x0 y0 h t : ℚ) (refX refY : List ℚ) (hh : 0 < h) :
    (∀ i : ℕ, i < (sweep f x0 y0 h (nSteps x0 h t)).length →
      ((sweep f x0 y0 h (nSteps x0 h t)).getD i (0, none)).1 = x0 + i * h) ∧
    (∀ i j : ℕ, i < j → j < (sweep f x0 y0 h (nSteps x0 h t)).length →
      ((sweep f x0 y0 h (nSteps x0 h t)).getD i (0, none)).1 <
        ((sweep f x0 y0 h (nSteps x0 h t)).getD j (0, none)).1) ∧
    (euler f x0 y0 h t refX refY).map Record.x =
      ((sweep f x0 y0 h (nSteps x0 h t)).map Prod.fst).map round6 := by
  have hlen : (sweep f x0 y0 h (nSteps x0 h t)).length = nSteps x0 h t + 1 :=
    sweep_length f x0 y0 h (nSteps x0 h t)
  refine ⟨?_, ?_, ?_⟩
  · intro i hi
    exact sweep_getD_x f x0 y0 h (nSteps x0 h t) i (hlen ▸ hi)
  · intro i j hij hj
    rw [sweep_getD_x f x0 y0 h (nSteps x0 h t) i (by omega : i < nSteps x0 h t + 1),
      sweep_getD_x f x0 y0 h (nSteps x0 h t) j (hlen ▸ hj)]
    have : (i : ℚ) < (j : ℚ) := by exact_mod_cast hij
    nlinarith
  · simp only [euler, List.map_map]
    rfl

theorem x_grid_and_strictly_increasing_witness :
    (0 : ℚ) < 1 ∧
    ((sweep (fun _ _ => some 0) 0 0 1 (nSteps 0 1 1)).getD 1 (0, none)).1 =
      0 + (1 : ℕ) * 1 := by
  refine ⟨one_pos, ?_⟩
  exact (x_grid_and_strictly_increasing (fun _ _ => some 0) 0 0 1 1 [] [] one_pos).1 1
    (by simp [sweep_length, nSteps])

/-- C7 counterexample: with y0 = 1/3 the returned record 0 carries the
six-decimal rounding 333333/1000000 as its actual value, which is not
equal to y0 — `to_dict` rounds, so "exactly equal to y0" fails. -/
theorem initial_record_not_bit_exact :
    (euler (fun _ _ => none) 0 (1/3) 1 1 [] []).head?.map Record.actual =
      some (some (333333 / 1000000)) ∧
    (333333 / 1000000 : ℚ) ≠ 1/3 ∧
    (euler (fun _ _ => none) 0 (1/3) 1 1 [] []).head?.map Record.actual ≠
      some (some ((1 : ℚ) / 3)) := by
  refine ⟨?_, by norm_num, ?_⟩ <;>
    norm_num [euler, nSteps, sweep, sweepLoop, sweepStep, fillRecord, errorFields,
      dictRecord, safe_float, round6, roundHalfEven]

/-- C7 (amended): record 0 of the returned ledger is emitted
unconditionally before any slope evaluation, with x = x0 and actual = y0
rounded to six decimal places by `safe_float` (exact whenever x0 and y0
are representable in six decimals); in the pre-serialisation ledger the
initial record is exactly (x0, y0). -/
theorem initial_record_unconditional (f : ℚ → ℚ → Option ℚ)
    (x0 y0 h t : ℚ) (refX refY : List ℚ) :
    (euler f x0 y0 h t refX refY).head?.map Record.x = some (round6 x0) ∧
    (euler f x0 y0 h t refX refY).head?.map Record.actual =
      some (some (round6 y0)) ∧
    (sweep f x0 y0 h (nSteps x0 h t)).head? = some (x0, some y0) :=
  ⟨rfl, rfl, rfl⟩

/-- C8 counterexample: a request with step = 0 ≤ 0 (and end ≤ start) but
no expression is rejected with the missing-expression error, not with
either configuration error — the expression check runs first. -/
theorem validation_order_counterexample :
    (0 : ℚ) ≤ 0 ∧
    evaluate "" 0 0 0 0 (fun _ _ => none) [] [] = Except.error EvalError.noLatex ∧
    (Except.error EvalError.noLatex :
        Except EvalError (List Record)) ≠ Except.error EvalError.badStep ∧
    (Except.error EvalError.noLatex :
        Except EvalError (List Record)) ≠ Except.error EvalError.badInterval := by
  refine ⟨le_refl 0, rfl, ?_, ?_⟩ <;> simp

/-- C8 (amended): every request that does supply an expression and has
step ≤ 0 or target_x ≤ x0 is rejected by the pre-flight validation with
one of the two configuration errors — before the solver is instantiated,
hence with no partial ledger. -/
theorem validation_rejects_bad_config (latex : String) (start endX y0 h : ℚ)
    (f : ℚ → ℚ → Option ℚ) (refX refY : List ℚ)
    (hl : latex ≠ "") (hbad : h ≤ 0 ∨ endX ≤ start) :
    evaluate latex start endX y0 h f refX refY = Except.error EvalError.badStep ∨
    evaluate latex start endX y0 h f refX refY = Except.error EvalError.badInterval := by
  by_cases hs : h ≤ 0
  · left
    simp [evaluate, hl, hs]
  · right
    have hi : endX ≤ start := hbad.resolve_left hs
    simp [evaluate, hl, hs, hi]

theorem validation_rejects_bad_config_witness :
    ("x" : String) ≠ "" ∧
    ((0 : ℚ) ≤ 0 ∨ (1 : ℚ) ≤ 0) ∧
    (evaluate "x" 0 1 0 0 (fun _ _ => none) [] [] = Except.error EvalError.badStep ∨
      evaluate "x" 0 1 0 0 (fun _ _ => none) [] [] =
        Except.error EvalError.badInterval) :=
  ⟨by decide, Or.inl (le_refl 0),
    validation_rejects_bad_config "x" 0 1 0 0 (fun _ _ => none) [] []
      (by decide) (Or.inl (le_refl 0))⟩

theorem argminAbsAux_spec (t : ℚ) :
    ∀ (rest : List ℚ) (i besti : ℕ) (bestv : ℚ),
      (argminAbsAux t rest i besti bestv = besti ∧
        ∀ j : ℕ, j < rest.length → bestv ≤ |rest.getD j 0 - t|) ∨
      (∃ j : ℕ, j < rest.length ∧
        argminAbsAux t rest i besti bestv = i + j ∧
        |rest.getD j 0 - t| < bestv ∧
        (∀ k : ℕ, k < rest.length → |rest.getD j 0 - t| ≤ |rest.getD k 0 - t|) ∧
        (∀ k : ℕ, k < j → |rest.getD j 0 - t| < |rest.getD k 0 - t|)) := by
  intro rest
  induction rest with
  | nil =>
      intro i besti bestv
      left
      exact ⟨rfl, fun j hj => absurd hj (by simp)⟩
  | cons v rest ih =>
      intro i besti bestv
      by_cases hv : |v - t| < bestv
      · rcases ih (i + 1) i (|v - t|) with ⟨hres, hall⟩ |
          ⟨j, hj, hres, hlt, hall, hfirst⟩
        · right
          refine ⟨0, by simp, ?_, by simpa using hv, ?_, ?_⟩
          · simp only [argminAbsAux, if_pos hv]
            omega
          · intro k hk
            cases k with
            | zero => simp
            | succ k =>
                simp only [List.getD_cons_zero, List.getD_cons_succ]
                exact hall k (by simpa using hk)
          · intro k hk
            omega
        · right
          refine ⟨j + 1, by simpa using hj, ?_, ?_, ?_, ?_⟩
          · simp only [argminAbsAux, if_pos hv]
            omega
          · simp only [List.getD_cons_succ]
            exact hlt.trans hv
          · intro k hk
            cases k with
            | zero =>
                simp only [List.getD_cons_succ, List.getD_cons_zero]
                exact hlt.le
            | succ k =>
                simp only [List.getD_cons_succ]
                exact hall k (by simpa using hk)
          · intro k hk
            cases k with
            | zero =>
                simp only [List.getD_cons_succ, List.getD_cons_zero]
                exact hlt
            | succ k =>
                simp only [List.getD_cons_succ]
                exact hfirst k (by omega)
      · have hbv : bestv ≤ |v - t| := not_lt.mp hv
        rcases ih (i + 1) besti bestv with ⟨hres, hall⟩ |
          ⟨j, hj, hres, hlt, hall, hfirst⟩
        · left
          refine ⟨?_, ?_⟩
          · simp only [argminAbsAux, if_neg hv]
            exact hres
          · intro j hjlen
            cases j with
            | zero => simpa using hbv
            | succ j =>
                simp only [List.getD_cons_succ]
                exact hall j (by simpa using hjlen)
        · right
          refine ⟨j + 1, by simpa using hj, ?_, ?_, ?_, ?_⟩
          · simp only [argminAbsAux, if_neg hv]
            omega
          · simp only [List.getD_cons_succ]
            exact hlt
          · intro k hk
            cases k with
            | zero =>
                simp only [List.getD_cons_succ, List.getD_cons_zero]
                exact (hlt.trans_le hbv).le
            | succ k =>
                simp only [List.getD_cons_succ]
                exact hall k (by simpa using hk)
          · intro k hk
            cases k with
            | zero =>
                simp only [List.getD_cons_succ, List.getD_cons_zero]
                exact hlt.trans_le hbv
            | succ k =>
                simp only [List.getD_cons_succ]
                exact hfirst k (by omega)

/-- C9: the nearest-reference match is deterministic with an
earliest-sample tie-break — `argminAbs` returns a valid index whose
x-distance to the target is minimal, and any index achieving the same
distance is at least it (Python's `min` over `range` keeps the first
minimizer). -/
theorem nearest_match_is_first_minimizer (t : ℚ) (xs : List ℚ) (hne : xs ≠ []) :
    argminAbs t xs < xs.length ∧
    (∀ j : ℕ, j < xs.length →
      |xs.getD (argminAbs t xs) 0 - t| ≤ |xs.getD j 0 - t|) ∧
    (∀ j : ℕ, j < xs.length →
      |xs.getD j 0 - t| = |xs.getD (argminAbs t xs) 0 - t| → argminAbs t xs ≤ j) := by
  match xs, hne with
  | v :: rest, _ =>
    rcases argminAbsAux_spec t rest 1 0 (|v - t|) with ⟨hres, hall⟩ |
      ⟨j, hj, hres, hlt, hall, hfirst⟩
    · have hr : argminAbs t (v :: rest) = 0 := hres
      rw [hr]
      refine ⟨by simp, ?_, ?_⟩
      · intro k hk
        cases k with
        | zero => simp
        | succ k =>
            simp only [List.getD_cons_zero, List.getD_cons_succ]
            exact hall k (by simpa using hk)
      · intro k _ _
        omega
    · have hr : argminAbs t (v :: rest) = 1 + j := hres
      have hgd : (v :: rest).getD (1 + j) 0 = rest.getD j 0 := by
        rw [Nat.add_comm]
        exact List.getD_cons_succ
      rw [hr, hgd]
      refine ⟨by simp; omega, ?_, ?_⟩
      · intro k hk
        cases k with
        | zero =>
            simp only [List.getD_cons_zero]
            exact hlt.le
        | succ k =>
            simp only [List.getD_cons_succ]
            exact hall k (by simpa using hk)
      · intro k hk heq
        cases k with
        | zero =>
            simp only [List.getD_cons_zero] at heq
            rw [heq] at hlt
            exact absurd hlt (lt_irrefl _)
        | succ k =>
            simp only [List.getD_cons_succ] at heq
            by_contra hcon
            have hkj : k < j := by omega
            have := hfirst k hkj
            rw [heq] at this
            exact absurd this (lt_irrefl _)

theorem nearest_match_is_first_minimizer_witness :
    ([0, 2, 0] : List ℚ) ≠ [] ∧
    argminAbs 1 [0, 2, 0] < ([0, 2, 0] : List ℚ).length ∧
    argminAbs 1 ([0, 2, 0] : List ℚ) ≤ 2 :=
  ⟨List.cons_ne_nil 0 [2, 0],
    (nearest_match_is_first_minimizer 1 [0, 2, 0] (List.cons_ne_nil 0 [2, 0])).1,
    (nearest_match_is_first_minimizer 1 [0, 2, 0] (List.cons_ne_nil 0 [2, 0])).2.2 2
      (by norm_num)
      (by norm_num [argminAbs, argminAbsAux])⟩

theorem round6_six_decimal (q : ℚ) : ∃ n : ℤ, round6 q = (n : ℚ) / 1000000 :=
  ⟨roundHalfEven (q * 1000000), rfl⟩

/-- C10: every numeric field of a returned record is a six-decimal
rounding (an integer over 10^6) produced by `safe_float`, sentinel fields
stay sentinels, record 0's actual value is round6(y0) — and rounding is
not the identity: round6(1/3) ≠ 1/3. -/
theorem output_rounded_to_six_decimals (f : ℚ → ℚ → Option ℚ)
    (x0 y0 h t : ℚ) (refX refY : List ℚ) :
    (∀ r ∈ euler f x0 y0 h t refX refY,
        (∃ n : ℤ, r.x = (n : ℚ) / 1000000) ∧
        (∀ v : ℚ, r.expected = some v → ∃ n : ℤ, v = (n : ℚ) / 1000000) ∧
        (∀ v : ℚ, r.actual = some v → ∃ n : ℤ, v = (n : ℚ) / 1000000) ∧
        (∀ v : ℚ, r.absError = some v → ∃ n : ℤ, v = (n : ℚ) / 1000000) ∧
        (∀ v : ℚ, r.relError = some v → ∃ n : ℤ, v = (n : ℚ) / 1000000)) ∧
    (euler f x0 y0 h t refX refY).head?.map Record.actual =
      some (some (round6 y0)) ∧
    round6 (1/3) ≠ (1/3 : ℚ) := by
  refine ⟨?_, rfl, by norm_num [round6, roundHalfEven]⟩
  intro r hr
  simp only [euler, List.map_map, List.mem_map, Function.comp] at hr
  obtain ⟨p, _, rfl⟩ := hr
  refine ⟨round6_six_decimal _, ?_, ?_, ?_, ?_⟩ <;>
  · intro v hv
    simp only [dictRecord, safe_float, Option.map_eq_some'] at hv
    obtain ⟨w, _, rfl⟩ := hv
    exact round6_six_decimal w

theorem output_rounded_to_six_decimals_witness :
    (⟨0, none, some (333333 / 1000000), none, none⟩ : Record) ∈
        euler (fun _ _ => none) 0 (1/3) 1 1 [] [] ∧
    (∃ n : ℤ, (333333 / 1000000 : ℚ) = (n : ℚ) / 1000000) := by
  have hmem : (⟨0, none, some (333333 / 1000000), none, none⟩ : Record) ∈
      euler (fun _ _ => none) 0 (1/3) 1 1 [] [] := by
    norm_num [euler, nSteps, sweep, sweepLoop, sweepStep, fillRecord, errorFields,
      dictRecord, safe_float, round6, roundHalfEven]
  exact ⟨hmem,
    ((output_rounded_to_six_decimals (fun _ _ => none) 0 (1/3) 1 1 [] []).1 _
        hmem).2.2.1 _ rfl⟩

end Emode
